import Mathlib

/-!
# ThinSliceSample: histogram bank, factor bookkeeping and rebinning

A verification development for `protoduneana/Utilities/FitUtils/ThinSliceSample.h`.

Numbers.  The C++ code computes on `double`.  `Dbl` keeps the special values of IEEE-754
(the two infinities and NaN) and takes the finite values to be rationals with exact
arithmetic: rounding, overflow to infinity and underflow are not represented, and the zero
of `Dbl` is the positive zero.  Division by zero yields an infinity (or NaN for `0/0`), as
it does in the compiled program, and a product of zero with an infinity is NaN.  The
statements about the member functions are chosen so that they do not lean on the exactness
of the finite arithmetic: they give a result as the product or quotient the code computes,
or they concern values on which double arithmetic is exact (whole numbers below `2^53`,
halves of them, infinities and NaN).

Histograms.  `TH1` stands for the ROOT histogram container used by the class (axis edges
and bin contents, with an underflow bin `0` and an overflow bin `n+1` on every axis).  Only
`Fill`, `Scale`, `Reset`, bin lookup and bin centres are used.

Exceptions.  A member function is a function on the object state that returns a `Call`: the
message of the exception thrown, if any, together with the object after the call.
-/

namespace protoana

/-! ## Doubles -/

/-- A double: a finite value, plus infinity, minus infinity, or not-a-number. -/
inductive Dbl where
  | fin (q : ℚ)
  | pinf
  | ninf
  | nan
  deriving DecidableEq

namespace Dbl

/-- Sum of two doubles; opposite infinities give NaN. -/
def add : Dbl → Dbl → Dbl
  | fin a, fin b => fin (a + b)
  | nan, _ => nan
  | _, nan => nan
  | pinf, ninf => nan
  | ninf, pinf => nan
  | pinf, _ => pinf
  | _, pinf => pinf
  | ninf, _ => ninf
  | _, ninf => ninf

/-- An infinity with the sign of the rational `a`, NaN when `a` is zero. -/
def signedInf (a : ℚ) : Dbl :=
  if 0 < a then pinf else if a < 0 then ninf else nan

/-- Product of two doubles; zero times an infinity gives NaN. -/
def mul : Dbl → Dbl → Dbl
  | fin a, fin b => fin (a * b)
  | nan, _ => nan
  | _, nan => nan
  | fin a, pinf => signedInf a
  | fin a, ninf => signedInf (-a)
  | pinf, fin b => signedInf b
  | ninf, fin b => signedInf (-b)
  | pinf, pinf => pinf
  | pinf, ninf => ninf
  | ninf, pinf => ninf
  | ninf, ninf => pinf

/-- Quotient of two doubles.  A finite non-zero value divided by zero is an infinity of the
sign of the numerator, `0/0` and `inf/inf` are NaN, a finite value divided by an infinity is
zero. -/
def div : Dbl → Dbl → Dbl
  | nan, _ => nan
  | _, nan => nan
  | fin a, fin b => if b = 0 then signedInf a else fin (a / b)
  | fin _, pinf => fin 0
  | fin _, ninf => fin 0
  | pinf, fin b => if b < 0 then ninf else pinf
  | ninf, fin b => if b < 0 then pinf else ninf
  | pinf, pinf => nan
  | pinf, ninf => nan
  | ninf, pinf => nan
  | ninf, ninf => nan

/-- The comparison `x < y` of doubles; false as soon as one side is NaN. -/
def lt : Dbl → Dbl → Bool
  | fin a, fin b => decide (a < b)
  | nan, _ => false
  | _, nan => false
  | ninf, ninf => false
  | ninf, _ => true
  | _, ninf => false
  | pinf, _ => false
  | _, pinf => true

/-- The comparison `x <= y` of doubles; false as soon as one side is NaN. -/
def le : Dbl → Dbl → Bool
  | fin a, fin b => decide (a ≤ b)
  | nan, _ => false
  | _, nan => false
  | ninf, _ => true
  | _, pinf => true
  | _, ninf => false
  | pinf, _ => false

instance : Zero Dbl := ⟨fin 0⟩
instance : One Dbl := ⟨fin 1⟩
instance : Add Dbl := ⟨add⟩
instance : Mul Dbl := ⟨mul⟩
instance : Div Dbl := ⟨div⟩

instance : AddCommMonoid Dbl where
  add_assoc a b c := by
    rcases a with a | _ | _ | _ <;> rcases b with b | _ | _ | _ <;> rcases c with c | _ | _ | _ <;>
      first
        | rfl
        | exact congrArg fin (add_assoc a b c)
  zero_add a := by
    rcases a with a | _ | _ | _
    · exact congrArg fin (zero_add a)
    all_goals rfl
  add_zero a := by
    rcases a with a | _ | _ | _
    · exact congrArg fin (add_zero a)
    all_goals rfl
  add_comm a b := by
    rcases a with a | _ | _ | _ <;> rcases b with b | _ | _ | _ <;>
      first
        | rfl
        | exact congrArg fin (add_comm a b)
  nsmul := nsmulRec

end Dbl

/-! ## The histogram container -/

/-- One histogram axis: the list of its bin edges, in ascending order.  An axis with `n + 1`
edges has the bins `1 .. n`; bin `0` is the underflow and bin `n + 1` the overflow. -/
structure TAxis where
  edges : List ℚ

namespace TAxis

/-- Number of bins of the axis, the flow bins not counted. -/
def GetNbins (a : TAxis) : Nat := a.edges.length - 1

/-- Lower edge of the first bin. -/
def GetXmin (a : TAxis) : ℚ := a.edges.headD 0

/-- Upper edge of the last bin. -/
def GetXmax (a : TAxis) : ℚ := a.edges.getLastD 0

/-- Bin lookup.  Values below the first edge go to the underflow bin `0`; values that are not
below the last edge (NaN included) go to the overflow bin; any other value goes to the bin
whose lower edge is the last edge not above it, so that a lower edge is inclusive and an
upper edge exclusive. -/
def FindBin (a : TAxis) : Dbl → Nat
  | Dbl.fin x =>
    if x < a.GetXmin then 0
    else if ¬ (x < a.GetXmax) then a.GetNbins + 1
    else a.edges.countP (fun e => decide (e ≤ x))
  | Dbl.ninf => 0
  | Dbl.pinf => a.GetNbins + 1
  | Dbl.nan => a.GetNbins + 1

/-- Centre of bin `i`: the mean of its two edges. -/
def GetBinCenter (a : TAxis) (i : Nat) : ℚ :=
  (a.edges.getD (i - 1) 0 + a.edges.getD i 0) / 2

end TAxis

/-- A histogram of one, two or three dimensions: its axes and the content of every bin, a bin
being named by its bin number on each axis. -/
structure TH1 where
  axes : List TAxis
  content : List Nat → Dbl

namespace TH1

/-- The bin that holds the point `xs`, axis by axis. -/
def FindBins (h : TH1) (xs : List Dbl) : List Nat :=
  List.zipWith TAxis.FindBin h.axes xs

/-- Adds `w` to the content of bin `b`. -/
def AddBinContent (h : TH1) (b : List Nat) (w : Dbl) : TH1 :=
  { h with content := fun c => if c = b then h.content c + w else h.content c }

/-- Fills the histogram at the point `xs` with weight `w`.  The container fills a histogram of
`n` axes with `n` coordinates; a point with another number of coordinates leaves the
histogram as it is. -/
def FillW (h : TH1) (xs : List Dbl) (w : Dbl) : TH1 :=
  if xs.length = h.axes.length then h.AddBinContent (h.FindBins xs) w else h

/-- Fills the histogram at the point `xs` with weight one. -/
def Fill (h : TH1) (xs : List Dbl) : TH1 := h.FillW xs 1

/-- Multiplies the content of every bin by `c`. -/
def Scale (h : TH1) (c : Dbl) : TH1 :=
  { h with content := fun b => c * h.content b }

/-- Sets the content of every bin to zero. -/
def Reset (h : TH1) : TH1 :=
  { h with content := fun _ => 0 }

/-- The bins of a list of axes, flow bins excluded: every choice of a bin number between `1`
and the number of bins on each axis. -/
def binsOf : List TAxis → List (List Nat)
  | [] => [[]]
  | a :: as => (List.range' 1 a.GetNbins).flatMap (fun i => (binsOf as).map (fun b => i :: b))

/-- The bins of the histogram, flow bins excluded. -/
def bins (h : TH1) : List (List Nat) := binsOf h.axes

/-- The centre of bin `b`, axis by axis. -/
def binCenter (h : TH1) (b : List Nat) : List Dbl :=
  List.zipWith (fun a i => Dbl.fin (a.GetBinCenter i)) h.axes b

/-- Sum of the contents of the bins of the histogram, flow bins excluded. -/
def Integral (h : TH1) : Dbl := (h.bins.map h.content).sum

/-- The point is counted in a bin of the histogram: it has one coordinate per axis and no
coordinate is looked up in a flow bin. -/
def inBins (h : TH1) (xs : List Dbl) : Bool :=
  decide (xs.length = h.axes.length) && decide (h.FindBins xs ∈ h.bins)

end TH1

/-! ## The sample -/

/-- The data members of `ThinSliceSample`.  The two `std::map<int, TH1 *>` members are partial
functions from the channel id to the histogram it owns. -/
structure ThinSliceSample where
  fFactor : Dbl
  fSampleName : String
  fFluxType : Int
  fNominalFlux : Dbl
  fDataMCScale : Dbl
  fIsSignal : Bool
  fRange : Dbl × Dbl
  fSelectionHists : Int → Option TH1
  fIncidentHist : TH1
  fTrueIncidentHist : TH1
  fSelectionHistsRebinned : Int → Option TH1
  fIncidentHistRebinned : TH1
  fMadeRebinned : Bool
  fIncidentEnergies : List (Dbl × Dbl)

/-- How a call of a member function ends: the message of the exception it threw, or `none`
when it returned, and the object after the call. -/
structure Call where
  thrown : Option String
  obj : ThinSliceSample

namespace ThinSliceSample

/-- `SetFactor(f)`: `fFactor = f`. -/
def SetFactor (s : ThinSliceSample) (f : Dbl) : ThinSliceSample :=
  { s with fFactor := f }

/-- `AddFlux(val)`: `fNominalFlux += val`. -/
def AddFlux (s : ThinSliceSample) (val : Dbl) : ThinSliceSample :=
  { s with fNominalFlux := s.fNominalFlux + val }

/-- `FillIncidentHist(vals)`: one `Fill` of the incident histogram per value, in order. -/
def FillIncidentHist (s : ThinSliceSample) (vals : List Dbl) : ThinSliceSample :=
  { s with fIncidentHist := vals.foldl (fun h v => h.Fill [v]) s.fIncidentHist }

/-- `AddIncidentEnergies(vals)`: appends the pair `(v, 1.)` for every value. -/
def AddIncidentEnergies (s : ThinSliceSample) (vals : List Dbl) : ThinSliceSample :=
  { s with fIncidentEnergies := vals.foldl (fun l v => l ++ [(v, 1)]) s.fIncidentEnergies }

/-- `FillTrueIncidentHist(vals)`: one `Fill` of the true-incident histogram per value. -/
def FillTrueIncidentHist (s : ThinSliceSample) (vals : List Dbl) : ThinSliceSample :=
  { s with fTrueIncidentHist := vals.foldl (fun h v => h.Fill [v]) s.fTrueIncidentHist }

/-- `FillSelectionHist(int id, double val)`: fills the histogram of channel `id` when the bank
has one, and does nothing otherwise. -/
def FillSelectionHist (s : ThinSliceSample) (id : Int) (val : Dbl) : ThinSliceSample :=
  match s.fSelectionHists id with
  | some h =>
    { s with fSelectionHists := fun j => if j = id then some (h.Fill [val]) else s.fSelectionHists j }
  | none => s

/-- `FillSelectionHist<N>(int id, const double (&vals)[N])`, the array being the list `vals`
and `N` its length.  Throws when `N < 1 || N > 3`, the message ending in `N`; otherwise fills
the histogram of channel `id`, when the bank has one, at the point `vals`.  The source casts
the histogram to the class of `N` axes without a check; the container fills only when `N` is
the number of axes of the histogram. -/
def FillSelectionHistN (s : ThinSliceSample) (id : Int) (vals : List Dbl) : Call :=
  if vals.length < 1 ∨ vals.length > 3 then
    ⟨some ("Error: trying to fill hists with too many values" ++ toString vals.length), s⟩
  else
    match s.fSelectionHists id with
    | some h =>
      ⟨none, { s with
        fSelectionHists := fun j => if j = id then some (h.Fill vals) else s.fSelectionHists j }⟩
    | none => ⟨none, s⟩

/-- `FillHistFromIncidentEnergies(hist)`: one weighted `Fill` of the caller's histogram per
stored pair, at the first component of the pair and with weight `fFactor`.  The result is
the object after the call and the caller's histogram after the call. -/
def FillHistFromIncidentEnergies (s : ThinSliceSample) (hist : TH1) : ThinSliceSample × TH1 :=
  (s, s.fIncidentEnergies.foldl (fun h vals => h.FillW [vals.1] s.fFactor) hist)

/-- `ScaleHists(val)`: scales the incident histogram, every selection histogram and the
true-incident histogram. -/
def ScaleHists (s : ThinSliceSample) (val : Dbl) : ThinSliceSample :=
  { s with
    fIncidentHist := s.fIncidentHist.Scale val
    fSelectionHists := fun id => (s.fSelectionHists id).map (fun h => h.Scale val)
    fTrueIncidentHist := s.fTrueIncidentHist.Scale val }

/-- `ScaleIncidentEnergies(val)`: multiplies the second component of every stored pair. -/
def ScaleIncidentEnergies (s : ThinSliceSample) (val : Dbl) : ThinSliceSample :=
  { s with fIncidentEnergies := s.fIncidentEnergies.map (fun p => (p.1, p.2 * val)) }

/-- `SetDataMCScale(val)`. -/
def SetDataMCScale (s : ThinSliceSample) (val : Dbl) : ThinSliceSample :=
  let s1 := { s with fDataMCScale := val }
  let s2 := s1.ScaleHists s1.fDataMCScale
  { s2 with fNominalFlux := s2.fNominalFlux * val }

/-- `ResetFactor()`: scales the histograms and the flux by `1./fFactor`, then sets the factor
to one.  The body has no `throw` and no test of `fFactor`. -/
def ResetFactor (s : ThinSliceSample) : Call :=
  let s1 := s.ScaleHists (1 / s.fFactor)
  let s2 := { s1 with fNominalFlux := s1.fNominalFlux * (1 / s1.fFactor) }
  ⟨none, { s2 with fFactor := 1 }⟩

/-- `SetFactorAndScale(val)`: `ResetFactor()`, then the new factor is stored and applied to
the flux and the histograms.  An exception of `ResetFactor` would end the call. -/
def SetFactorAndScale (s : ThinSliceSample) (val : Dbl) : Call :=
  match s.ResetFactor with
  | ⟨some e, s1⟩ => ⟨some e, s1⟩
  | ⟨none, s1⟩ =>
    let s2 := { s1 with fFactor := val }
    let s3 := { s2 with fNominalFlux := s2.fNominalFlux * val }
    ⟨none, s3.ScaleHists val⟩

/-- `CheckIsSignal()`. -/
def CheckIsSignal (s : ThinSliceSample) : Bool := s.fIsSignal

/-- `CheckInSignalRange(val)`: `(fRange.first < val) && (val <= fRange.second)`. -/
def CheckInSignalRange (s : ThinSliceSample) (val : Dbl) : Bool :=
  Dbl.lt s.fRange.1 val && Dbl.le val s.fRange.2

/-! ### Rebinning

The header declares `MakeRebinnedHists`, `RefillRebinnedHists`, `Rebin1D`, `Rebin2D` and
`Rebin3D`; their bodies are in a source file of the repository that is not available here. -/

/-- Modelled from the spec: the bodies of `Rebin1D`, `Rebin2D` and `Rebin3D` are missing.
Every bin of the fine histogram (flow bins excluded) adds its content to the bin of the
rebinned histogram that the bin lookup of the rebinned histogram gives for the centre of the
fine bin, on every axis.  The three routines differ only in the number of coordinates looked
up, which here is the number of axes. -/
def Rebin (sel_hist rebinned : TH1) : TH1 :=
  sel_hist.bins.foldl
    (fun r b => r.AddBinContent (rebinned.FindBins (sel_hist.binCenter b)) (sel_hist.content b))
    rebinned

/-- Modelled from the spec: the body of `MakeRebinnedHists` is missing.  The coarse edges are
an input, `coarse id k` for axis `k` of channel `id` and `coarseIncident` for the incident
histogram.  Every channel of the bank gets an empty histogram with as many axes as its fine
histogram, the incident histogram gets an empty one-axis mirror, rebinned histograms of an
earlier call are replaced, and `fMadeRebinned` is set. -/
def MakeRebinnedHists (s : ThinSliceSample) (coarse : Int → Nat → List ℚ)
    (coarseIncident : List ℚ) : ThinSliceSample :=
  { s with
    fSelectionHistsRebinned := fun id =>
      (s.fSelectionHists id).map
        (fun h => ⟨(List.range h.axes.length).map (fun k => ⟨coarse id k⟩), fun _ => 0⟩)
    fIncidentHistRebinned := ⟨[⟨coarseIncident⟩], fun _ => 0⟩
    fMadeRebinned := true }

/-- Modelled from the spec: the body of `RefillRebinnedHists` is missing.  Fails when
`fMadeRebinned` is false; otherwise every rebinned histogram is cleared and refilled from its
fine histogram by `Rebin`. -/
def RefillRebinnedHists (s : ThinSliceSample) : Call :=
  if s.fMadeRebinned = false then
    ⟨some "NotInitialized", s⟩
  else
    ⟨none, { s with
      fSelectionHistsRebinned := fun id =>
        match s.fSelectionHistsRebinned id with
        | some r =>
          match s.fSelectionHists id with
          | some h => some (Rebin h r.Reset)
          | none => some r.Reset
        | none => none
      fIncidentHistRebinned := Rebin s.fIncidentHist s.fIncidentHistRebinned.Reset }⟩

end ThinSliceSample

/-- The range of the coarse axis contains the centre of every bin of the fine axis. -/
def coversAxis (fine coarse : TAxis) : Bool :=
  (List.range' 1 fine.GetNbins).all
    (fun i => decide (coarse.GetXmin ≤ fine.GetBinCenter i ∧ fine.GetBinCenter i < coarse.GetXmax))

/-- Axis by axis, the coarse range contains every fine bin centre. -/
def covers : List TAxis → List TAxis → Bool
  | [], [] => true
  | f :: fs, c :: cs => coversAxis f c && covers fs cs
  | _, _ => false

/-! ## Sample states used as concrete inputs -/

/-- A one-axis histogram with the given edges and no content. -/
def emptyHist (edges : List ℚ) : TH1 := ⟨[⟨edges⟩], fun _ => 0⟩

/-- A sample as constructed: factor one, flux zero, data/MC scale one, signal range `(1, 2]`,
one selection channel `7` over the edges `0, 1, 2, 3` and incident histograms over the same
edges, all empty, and no rebinned histograms yet. -/
def sample0 : ThinSliceSample where
  fFactor := 1
  fSampleName := "Pions"
  fFluxType := 1
  fNominalFlux := 0
  fDataMCScale := 1
  fIsSignal := true
  fRange := (1, Dbl.fin 2)
  fSelectionHists := fun id => if id = 7 then some (emptyHist [0, 1, 2, 3]) else none
  fIncidentHist := emptyHist [0, 1, 2, 3]
  fTrueIncidentHist := emptyHist [0, 1, 2, 3]
  fSelectionHistsRebinned := fun _ => none
  fIncidentHistRebinned := emptyHist []
  fMadeRebinned := false
  fIncidentEnergies := []

/-- The sample `sample0` after `AddFlux(1.)` and one entry at `2.5`, the last bin, in channel
`7` and in the incident histogram. -/
def sample1 : ThinSliceSample :=
  ((sample0.AddFlux 1).FillSelectionHist 7 (Dbl.fin (5 / 2))).FillIncidentHist [Dbl.fin (5 / 2)]

/-- The sample `sample1` with rebinned histograms made over the single coarse bin `[0, 3)`
and refilled. -/
def sample2 : ThinSliceSample :=
  ((sample1.MakeRebinnedHists (fun _ _ => [0, 3]) [0, 3]).RefillRebinnedHists).obj

/-- The scenario of the specification: one channel `7` over the fine edges `0, 1, 2, 3, 4, 5`
filled at `0.5`, `1.5`, `1.5` and `4.5`. -/
def scenario : ThinSliceSample :=
  ((((ThinSliceSample.FillSelectionHist
    { sample0 with
      fSelectionHists := fun id => if id = 7 then some (emptyHist [0, 1, 2, 3, 4, 5]) else none }
    7 (Dbl.fin (1 / 2))).FillSelectionHist 7 (Dbl.fin (3 / 2))).FillSelectionHist 7
      (Dbl.fin (3 / 2))).FillSelectionHist 7 (Dbl.fin (9 / 2)))

/-! ## Arithmetic of doubles -/

namespace Dbl

theorem zero_def : (0 : Dbl) = fin 0 := rfl

theorem one_def : (1 : Dbl) = fin 1 := rfl

theorem fin_add_fin (a b : ℚ) : fin a + fin b = fin (a + b) := rfl

theorem fin_mul_fin (a b : ℚ) : fin a * fin b = fin (a * b) := rfl

theorem fin_div_fin (a b : ℚ) :
    fin a / fin b = if b = 0 then signedInf a else fin (a / b) := rfl

theorem fin_mul_pinf (a : ℚ) : fin a * pinf = signedInf a := rfl

theorem fin_mul_ninf (a : ℚ) : fin a * ninf = signedInf (-a) := rfl

theorem pinf_mul_fin (a : ℚ) : pinf * fin a = signedInf a := rfl

theorem ninf_mul_fin (a : ℚ) : ninf * fin a = signedInf (-a) := rfl

theorem nan_mul (x : Dbl) : nan * x = nan := by cases x <;> rfl

theorem mul_nan (x : Dbl) : x * nan = nan := by cases x <;> rfl

theorem signedInf_pos {a : ℚ} (h : 0 < a) : signedInf a = pinf := by
  simp [signedInf, h]

theorem signedInf_neg {a : ℚ} (h : a < 0) : signedInf a = ninf := by
  simp [signedInf, h, not_lt.mpr h.le]

theorem signedInf_zero : signedInf 0 = nan := by
  simp [signedInf]

/-- In the exact arithmetic of `Dbl` the inverse of a finite non-zero value is the rational
inverse. -/
theorem one_div_fin {q : ℚ} (hq : q ≠ 0) : (1 : Dbl) / fin q = fin (1 / q) := by
  rw [one_def, fin_div_fin, if_neg hq]

/-- One divided by the positive zero is plus infinity. -/
theorem one_div_zero : (1 : Dbl) / 0 = pinf := by
  rw [one_def, zero_def, fin_div_fin, if_pos rfl]
  exact signedInf_pos one_pos

theorem one_mul_dbl (x : Dbl) : (1 : Dbl) * x = x := by
  rcases x with a | _ | _ | _
  · rw [one_def, fin_mul_fin, one_mul]
  · rw [one_def, fin_mul_pinf]; exact signedInf_pos one_pos
  · rw [one_def, fin_mul_ninf]; exact signedInf_neg (by norm_num)
  · rfl

theorem mul_one_dbl (x : Dbl) : x * (1 : Dbl) = x := by
  rcases x with a | _ | _ | _
  · rw [one_def, fin_mul_fin, mul_one]
  · rw [one_def, pinf_mul_fin]; exact signedInf_pos one_pos
  · rw [one_def, ninf_mul_fin]; exact signedInf_neg (by norm_num)
  · rfl

theorem one_div_one : (1 : Dbl) / 1 = 1 := by
  rw [one_def, fin_div_fin, if_neg one_ne_zero, div_one]

theorem lt_irrefl_dbl (x : Dbl) : lt x x = false := by
  rcases x with a | _ | _ | _ <;> simp [lt]

end Dbl

namespace ThinSliceSample

/-! ## Signal range -/

/-- C5: `CheckInSignalRange(v)` is true exactly when `low < v` and `v <= high` as comparisons
of doubles; for a finite range `(lo, hi)` and a finite value `q` that is `lo < q ∧ q ≤ hi`;
the value `low` is always outside; the value `hi` is inside exactly when `lo < hi`; with the
range `(1, 2]` the values `1` and `2.0000001` are outside and `1.0000001` and `2` inside.
The check is a function of the state that returns only the Boolean: the body assigns no
member. -/
theorem CheckInSignalRange_half_open (s : ThinSliceSample) :
    (∀ v, s.CheckInSignalRange v = true ↔
      (Dbl.lt s.fRange.1 v = true ∧ Dbl.le v s.fRange.2 = true)) ∧
    (∀ lo hi q : ℚ,
      CheckInSignalRange { s with fRange := (Dbl.fin lo, Dbl.fin hi) } (Dbl.fin q) = true ↔
        (lo < q ∧ q ≤ hi)) ∧
    s.CheckInSignalRange s.fRange.1 = false ∧
    (∀ lo hi : ℚ,
      CheckInSignalRange { s with fRange := (Dbl.fin lo, Dbl.fin hi) } (Dbl.fin hi) = true ↔
        lo < hi) ∧
    CheckInSignalRange { s with fRange := (Dbl.fin 1, Dbl.fin 2) } (Dbl.fin 1) = false ∧
    CheckInSignalRange { s with fRange := (Dbl.fin 1, Dbl.fin 2) }
      (Dbl.fin (10000001 / 10000000)) = true ∧
    CheckInSignalRange { s with fRange := (Dbl.fin 1, Dbl.fin 2) } (Dbl.fin 2) = true ∧
    CheckInSignalRange { s with fRange := (Dbl.fin 1, Dbl.fin 2) }
      (Dbl.fin (20000001 / 10000000)) = false ∧
    (∀ lo hi : Dbl, CheckInSignalRange { s with fRange := (lo, hi) } Dbl.nan = false) := by
  refine ⟨fun v => ?_, fun lo hi q => ?_, ?_, fun lo hi => ?_, ?_, ?_, ?_, ?_, fun lo hi => ?_⟩
  · simp [CheckInSignalRange]
  · simp [CheckInSignalRange, Dbl.lt, Dbl.le]
  · simp [CheckInSignalRange, Dbl.lt_irrefl_dbl]
  · simp [CheckInSignalRange, Dbl.lt, Dbl.le]
  · simp [CheckInSignalRange, Dbl.lt, Dbl.le]
  · simp [CheckInSignalRange, Dbl.lt, Dbl.le]; norm_num
  · simp [CheckInSignalRange, Dbl.lt, Dbl.le]
  · simp [CheckInSignalRange, Dbl.lt, Dbl.le]; norm_num
  · rcases lo with a | _ | _ | _ <;> simp [CheckInSignalRange, Dbl.lt]

/-! ## Filling -/

/-- C6: when the bank has no histogram for the channel id, the one-value fill returns the
sample as it was, and the fill with one to three values returns without an exception and
with the sample as it was: no content changes and no channel is added. -/
theorem FillSelectionHist_unknown_id (s : ThinSliceSample) (id : Int)
    (hid : s.fSelectionHists id = none) :
    (∀ val : Dbl, s.FillSelectionHist id val = s) ∧
    (∀ vals : List Dbl, 1 ≤ vals.length → vals.length ≤ 3 →
      s.FillSelectionHistN id vals = ⟨none, s⟩) := by
  refine ⟨fun val => ?_, fun vals h1 h3 => ?_⟩
  · simp [FillSelectionHist, hid]
  · have hN : ¬ (vals.length < 1 ∨ vals.length > 3) := by omega
    unfold FillSelectionHistN
    rw [if_neg hN, hid]

theorem FillSelectionHist_unknown_id_witness :
    sample0.fSelectionHists 3 = none ∧
    sample0.FillSelectionHist 3 (Dbl.fin 5) = sample0 ∧
    sample0.FillSelectionHistN 3 [Dbl.fin 5, Dbl.fin 1] = ⟨none, sample0⟩ :=
  have h : sample0.fSelectionHists 3 = none := by simp [sample0]
  ⟨h, (FillSelectionHist_unknown_id sample0 3 h).1 (Dbl.fin 5),
    (FillSelectionHist_unknown_id sample0 3 h).2 [Dbl.fin 5, Dbl.fin 1] (by simp) (by simp)⟩

/-- C10: the fill with a list of `N` values throws exactly when `N` is not 1, 2 or 3; the
message is the fixed text followed by `N` in decimal, and the object after the throw is the
object before the call. -/
theorem FillSelectionHistN_dimension (s : ThinSliceSample) (id : Int) (vals : List Dbl) :
    ((s.FillSelectionHistN id vals).thrown.isSome = true ↔
      ¬ (vals.length = 1 ∨ vals.length = 2 ∨ vals.length = 3)) ∧
    (¬ (vals.length = 1 ∨ vals.length = 2 ∨ vals.length = 3) →
      s.FillSelectionHistN id vals =
        ⟨some ("Error: trying to fill hists with too many values" ++ toString vals.length), s⟩) := by
  by_cases hN : vals.length < 1 ∨ vals.length > 3
  · have h123 : ¬ (vals.length = 1 ∨ vals.length = 2 ∨ vals.length = 3) := by omega
    unfold FillSelectionHistN
    rw [if_pos hN]
    exact ⟨⟨fun _ => h123, fun _ => rfl⟩, fun _ => rfl⟩
  · have h123 : vals.length = 1 ∨ vals.length = 2 ∨ vals.length = 3 := by omega
    refine ⟨⟨fun h => ?_, fun h => absurd h123 h⟩, fun h => absurd h123 h⟩
    unfold FillSelectionHistN at h
    rw [if_neg hN] at h
    cases hsel : s.fSelectionHists id <;> rw [hsel] at h <;> simp at h

theorem FillSelectionHistN_dimension_witness :
    sample1.FillSelectionHistN 7 [Dbl.fin 1, Dbl.fin 2, Dbl.fin 3, Dbl.fin 4] =
      ⟨some "Error: trying to fill hists with too many values4", sample1⟩ :=
  (FillSelectionHistN_dimension sample1 7 [Dbl.fin 1, Dbl.fin 2, Dbl.fin 3, Dbl.fin 4]).2
    (by decide)

/-- C7: `FillHistFromIncidentEnergies` leaves the sample as it was and fills the caller's
histogram once per stored pair, in list order, at the energy of the pair and with the
current factor as weight; the stored weights play no part, so the result is the same after
any sequence of `ScaleIncidentEnergies` calls. -/
theorem FillHistFromIncidentEnergies_uses_factor (s : ThinSliceSample) (hist : TH1) :
    (s.FillHistFromIncidentEnergies hist).1 = s ∧
    (s.FillHistFromIncidentEnergies hist).2 =
      (s.fIncidentEnergies.map Prod.fst).foldl (fun h e => h.FillW [e] s.fFactor) hist ∧
    (∀ (e w : Dbl) (rest : List (Dbl × Dbl)),
      (FillHistFromIncidentEnergies { s with fIncidentEnergies := (e, w) :: rest } hist).2 =
        (FillHistFromIncidentEnergies { s with fIncidentEnergies := rest }
          (hist.FillW [e] s.fFactor)).2) ∧
    (∀ scales : List Dbl,
      ((scales.foldl ScaleIncidentEnergies s).FillHistFromIncidentEnergies hist).2 =
        (s.FillHistFromIncidentEnergies hist).2) := by
  have key : ∀ (t : ThinSliceSample),
      (t.FillHistFromIncidentEnergies hist).2 =
        (t.fIncidentEnergies.map Prod.fst).foldl (fun h e => h.FillW [e] t.fFactor) hist := by
    intro t
    simp [FillHistFromIncidentEnergies, List.foldl_map]
  refine ⟨rfl, key s, fun e w rest => rfl, fun scales => ?_⟩
  have inv : ∀ (l : List Dbl) (t : ThinSliceSample),
      (l.foldl ScaleIncidentEnergies t).fFactor = t.fFactor ∧
      (l.foldl ScaleIncidentEnergies t).fIncidentEnergies.map Prod.fst =
        t.fIncidentEnergies.map Prod.fst := by
    intro l
    induction l with
    | nil => intro t; exact ⟨rfl, rfl⟩
    | cons c l ih =>
      intro t
      have h := ih (t.ScaleIncidentEnergies c)
      refine ⟨h.1, h.2.trans ?_⟩
      simp [ScaleIncidentEnergies, List.map_map, Function.comp_def]
  rw [key, key, (inv scales s).1, (inv scales s).2]

/-! ## Normalisation -/

/-- C9: `SetDataMCScale(k)` stores `k` in `fDataMCScale`, multiplies the content of every bin
of the incident histogram, of every selection histogram and of the true-incident histogram
by `k`, multiplies the flux by `k`, keeps the axes and the set of channels, and leaves the
factor, the incident-energy list, the signal flag and range, the name and the flux type as
they were. -/
theorem SetDataMCScale_effect (s : ThinSliceSample) (k : Dbl) :
    (s.SetDataMCScale k).fDataMCScale = k ∧
    (∀ b, (s.SetDataMCScale k).fIncidentHist.content b = k * s.fIncidentHist.content b) ∧
    (s.SetDataMCScale k).fIncidentHist.axes = s.fIncidentHist.axes ∧
    (∀ id, (s.SetDataMCScale k).fSelectionHists id =
      (s.fSelectionHists id).map (fun h => ⟨h.axes, fun b => k * h.content b⟩)) ∧
    (∀ b, (s.SetDataMCScale k).fTrueIncidentHist.content b =
      k * s.fTrueIncidentHist.content b) ∧
    (s.SetDataMCScale k).fTrueIncidentHist.axes = s.fTrueIncidentHist.axes ∧
    (s.SetDataMCScale k).fNominalFlux = s.fNominalFlux * k ∧
    (s.SetDataMCScale k).fFactor = s.fFactor ∧
    (s.SetDataMCScale k).fIncidentEnergies = s.fIncidentEnergies ∧
    (s.SetDataMCScale k).fIsSignal = s.fIsSignal ∧
    (s.SetDataMCScale k).fRange = s.fRange ∧
    (s.SetDataMCScale k).fSampleName = s.fSampleName ∧
    (s.SetDataMCScale k).fFluxType = s.fFluxType :=
  ⟨rfl, fun _ => rfl, rfl, fun _ => rfl, fun _ => rfl, rfl, rfl, rfl, rfl, rfl, rfl, rfl, rfl⟩

/-- The concrete sample `sample1`: factor one, flux one, and one entry in bin 3 of the
incident histogram and of channel `7`. -/
theorem sample1_values :
    sample1.fFactor = 1 ∧ sample1.fNominalFlux = 1 ∧
    sample1.fIncidentHist.content [3] = 1 ∧
    sample1.fSelectionHists 7 = some ((emptyHist [0, 1, 2, 3]).AddBinContent [3] 1) := by
  refine ⟨rfl, zero_add (1 : Dbl), ?_, ?_⟩
  · simp [sample1, sample0, AddFlux, FillIncidentHist, FillSelectionHist, TH1.Fill, TH1.FillW, emptyHist,
      TH1.AddBinContent, TH1.FindBins, TAxis.FindBin, TAxis.GetXmin, TAxis.GetXmax,
      TAxis.GetNbins, Dbl.zero_def, Dbl.one_def, Dbl.fin_add_fin]
    norm_num [List.countP_cons]
  · simp [sample1, sample0, AddFlux, FillIncidentHist, FillSelectionHist, TH1.Fill, TH1.FillW, emptyHist,
      TH1.AddBinContent, TH1.FindBins, TAxis.FindBin, TAxis.GetXmin, TAxis.GetXmax,
      TAxis.GetNbins]
    norm_num [List.countP_cons]

/-- C8, amended: `ResetFactor()` never throws and has no test of the factor.  For every
state, a zero factor included, it returns with the factor set to one, the flux multiplied by
`1./fFactor` and every bin of the incident, selection and true-incident histograms
multiplied by `1./fFactor`, the axes and the set of channels being kept. -/
theorem ResetFactor_never_throws (s : ThinSliceSample) :
    s.ResetFactor.thrown = none ∧
    s.ResetFactor.obj.fFactor = 1 ∧
    s.ResetFactor.obj.fNominalFlux = s.fNominalFlux * (1 / s.fFactor) ∧
    (∀ b, s.ResetFactor.obj.fIncidentHist.content b =
      (1 / s.fFactor) * s.fIncidentHist.content b) ∧
    (∀ id, s.ResetFactor.obj.fSelectionHists id =
      (s.fSelectionHists id).map (fun h => ⟨h.axes, fun b => (1 / s.fFactor) * h.content b⟩)) ∧
    (∀ b, s.ResetFactor.obj.fTrueIncidentHist.content b =
      (1 / s.fFactor) * s.fTrueIncidentHist.content b) :=
  ⟨rfl, rfl, rfl, fun _ => rfl, fun _ => rfl, fun _ => rfl⟩

/-- C8 fails as stated: on the sample `sample1` with the factor set to the zero `0.`,
`ResetFactor()` throws nothing and returns a rescaled state, with factor one and an infinite
flux. -/
theorem ResetFactor_zero_factor_returns :
    (sample1.SetFactor 0).fFactor = 0 ∧
    (sample1.SetFactor 0).ResetFactor.thrown = none ∧
    (sample1.SetFactor 0).ResetFactor.obj.fFactor = 1 ∧
    (sample1.SetFactor 0).ResetFactor.obj.fNominalFlux = Dbl.pinf ∧
    (sample1.SetFactor 0).ResetFactor.obj.fIncidentHist.content [3] = Dbl.pinf ∧
    ¬ ((sample1.SetFactor 0).ResetFactor.thrown.isSome = true ↔
        (sample1.SetFactor 0).fFactor = 0) := by
  have hc : (sample1.SetFactor 0).fIncidentHist.content [3] = 1 := sample1_values.2.2.1
  refine ⟨rfl, rfl, rfl, ?_, ?_, ?_⟩
  · show sample1.fNominalFlux * (1 / (0 : Dbl)) = Dbl.pinf
    rw [sample1_values.2.1, Dbl.one_div_zero, Dbl.one_mul_dbl]
  · show (1 / (0 : Dbl)) * (sample1.SetFactor 0).fIncidentHist.content [3] = Dbl.pinf
    rw [hc, Dbl.one_div_zero, Dbl.mul_one_dbl]
  · intro h
    have h2 := h.mpr rfl
    simp [ResetFactor] at h2

/-- The concrete sample `sample2`: the fine incident histogram holds one entry in bin 3, and
the refilled rebinned incident histogram holds it in its single bin. -/
theorem sample2_values :
    sample2.fFactor = 1 ∧
    sample2.fIncidentHist.content [3] = 1 ∧
    sample2.fIncidentHistRebinned.content [1] = 1 ∧
    sample2.fMadeRebinned = true := by
  refine ⟨rfl, sample1_values.2.2.1, ?_, rfl⟩
  simp [sample2, RefillRebinnedHists, MakeRebinnedHists, Rebin, TH1.Reset, TH1.bins,
    TH1.binsOf, TH1.AddBinContent, TH1.FindBins, TH1.binCenter, TAxis.FindBin,
    TAxis.GetBinCenter, TAxis.GetXmin, TAxis.GetXmax, TAxis.GetNbins, List.range', sample1,
    sample0, AddFlux, FillIncidentHist, FillSelectionHist, emptyHist, TH1.Fill, TH1.FillW, Dbl.zero_def,
    Dbl.one_def, Dbl.fin_add_fin]
  norm_num [List.countP_cons, Dbl.fin_add_fin]

/-- C4, amended: `SetFactorAndScale(k)`, `ResetFactor()` and `SetDataMCScale(k)` rescale the
fine histograms only; the rebinned selection histograms, the rebinned incident histogram and
the made-rebinned flag are after the call what they were before it. -/
theorem scaling_leaves_rebinned_unchanged (s : ThinSliceSample) (k : Dbl) :
    ((s.SetFactorAndScale k).obj.fSelectionHistsRebinned = s.fSelectionHistsRebinned ∧
      (s.SetFactorAndScale k).obj.fIncidentHistRebinned = s.fIncidentHistRebinned ∧
      (s.SetFactorAndScale k).obj.fMadeRebinned = s.fMadeRebinned) ∧
    (s.ResetFactor.obj.fSelectionHistsRebinned = s.fSelectionHistsRebinned ∧
      s.ResetFactor.obj.fIncidentHistRebinned = s.fIncidentHistRebinned ∧
      s.ResetFactor.obj.fMadeRebinned = s.fMadeRebinned) ∧
    ((s.SetDataMCScale k).fSelectionHistsRebinned = s.fSelectionHistsRebinned ∧
      (s.SetDataMCScale k).fIncidentHistRebinned = s.fIncidentHistRebinned ∧
      (s.SetDataMCScale k).fMadeRebinned = s.fMadeRebinned) ∧
    (s.ScaleHists k).fSelectionHistsRebinned = s.fSelectionHistsRebinned ∧
    (s.ScaleHists k).fIncidentHistRebinned = s.fIncidentHistRebinned :=
  ⟨⟨rfl, rfl, rfl⟩, ⟨rfl, rfl, rfl⟩, ⟨rfl, rfl, rfl⟩, rfl, rfl⟩

/-- C4 fails as stated: on `sample2`, whose rebinned histograms are made and filled,
`SetDataMCScale(2)` and `SetFactorAndScale(2)` double the fine incident bin while the
rebinned incident bin keeps the content 1, which is neither twice its old content nor the
content 2 that rebinning the scaled fine histogram gives; `ResetFactor()` on the same sample
with the factor set to 2 halves the fine bin and leaves the rebinned bin at 1. -/
theorem scaling_does_not_rescale_rebinned :
    sample2.fMadeRebinned = true ∧
    sample2.fIncidentHistRebinned.content [1] = Dbl.fin 1 ∧
    (sample2.SetDataMCScale (Dbl.fin 2)).fIncidentHist.content [3] = Dbl.fin 2 ∧
    (sample2.SetDataMCScale (Dbl.fin 2)).fIncidentHistRebinned.content [1] = Dbl.fin 1 ∧
    (sample2.SetDataMCScale (Dbl.fin 2)).fIncidentHistRebinned.content [1] ≠
      Dbl.fin 2 * sample2.fIncidentHistRebinned.content [1] ∧
    ((sample2.SetDataMCScale (Dbl.fin 2)).RefillRebinnedHists).obj.fIncidentHistRebinned.content
      [1] = Dbl.fin 2 ∧
    (sample2.SetFactorAndScale (Dbl.fin 2)).obj.fIncidentHist.content [3] = Dbl.fin 2 ∧
    (sample2.SetFactorAndScale (Dbl.fin 2)).obj.fIncidentHistRebinned.content [1] = Dbl.fin 1 ∧
    ((sample2.SetFactor (Dbl.fin 2)).ResetFactor).obj.fIncidentHist.content [3] =
      Dbl.fin (1 / 2) ∧
    ((sample2.SetFactor (Dbl.fin 2)).ResetFactor).obj.fIncidentHistRebinned.content [1] =
      Dbl.fin 1 := by
  have hfine : sample2.fIncidentHist.content [3] = 1 := sample2_values.2.1
  have hreb : sample2.fIncidentHistRebinned.content [1] = 1 := sample2_values.2.2.1
  have h2 : (2 : ℚ) ≠ 0 := by norm_num
  refine ⟨rfl, hreb, ?_, hreb, ?_, ?_, ?_, hreb, ?_, hreb⟩
  · show Dbl.fin 2 * sample2.fIncidentHist.content [3] = Dbl.fin 2
    rw [hfine, Dbl.mul_one_dbl]
  · show sample2.fIncidentHistRebinned.content [1] ≠
      Dbl.fin 2 * sample2.fIncidentHistRebinned.content [1]
    rw [hreb, Dbl.mul_one_dbl]
    intro h
    have h' : (1 : ℚ) = 2 := Dbl.fin.inj h
    norm_num at h'
  · simp [sample2, SetDataMCScale, ScaleHists, TH1.Scale, RefillRebinnedHists,
      MakeRebinnedHists, Rebin, TH1.Reset, TH1.bins, TH1.binsOf, TH1.AddBinContent,
      TH1.FindBins, TH1.binCenter, TAxis.FindBin, TAxis.GetBinCenter, TAxis.GetXmin,
      TAxis.GetXmax, TAxis.GetNbins, List.range', sample1, sample0, AddFlux, FillIncidentHist,
      FillSelectionHist, emptyHist, TH1.Fill, TH1.FillW, Dbl.zero_def, Dbl.one_def,
      Dbl.fin_add_fin, Dbl.fin_mul_fin]
    norm_num [List.countP_cons, Dbl.fin_add_fin, Dbl.fin_mul_fin]
  · show Dbl.fin 2 * ((1 / sample2.fFactor) * sample2.fIncidentHist.content [3]) = Dbl.fin 2
    rw [hfine, sample2_values.1, Dbl.one_div_one, Dbl.one_mul_dbl, Dbl.mul_one_dbl]
  · show (1 / Dbl.fin 2) * sample2.fIncidentHist.content [3] = Dbl.fin (1 / 2)
    rw [hfine, Dbl.one_div_fin h2, Dbl.mul_one_dbl]

end ThinSliceSample

/-! ## Rebinning preserves the integral -/

/-- Adding `w` to the value at `t` adds `w` to a sum over a duplicate-free list that contains
`t`, and nothing to a sum over a list that does not. -/
theorem sum_map_update (L : List (List Nat)) (hL : L.Nodup) (f : List Nat → Dbl)
    (t : List Nat) (w : Dbl) :
    (L.map (fun c => if c = t then f c + w else f c)).sum =
      (L.map f).sum + (if t ∈ L then w else 0) := by
  induction L with
  | nil => simp
  | cons c L ih =>
    have hc : c ∉ L := (List.nodup_cons.mp hL).1
    have ih' := ih (List.nodup_cons.mp hL).2
    simp only [List.map_cons, List.sum_cons, ih']
    by_cases hct : c = t
    · subst hct
      simp only [if_true, List.mem_cons, true_or, if_neg hc, add_zero]
      abel
    · have htc : ¬ t = c := fun h => hct h.symm
      simp only [if_neg hct, List.mem_cons, htc, false_or]
      abel

/-- The sum over a duplicate-free list of bins after a run of `AddBinContent` calls is the sum
before plus the weights whose target bin is in the list. -/
theorem sum_foldl_AddBinContent (L : List (List Nat)) (hL : L.Nodup) {β : Type}
    (tgt : β → List Nat) (wt : β → Dbl) (bs : List β) (r : TH1) :
    (L.map (bs.foldl (fun r b => r.AddBinContent (tgt b) (wt b)) r).content).sum =
      (L.map r.content).sum + (bs.map (fun b => if tgt b ∈ L then wt b else 0)).sum := by
  induction bs generalizing r with
  | nil => simp
  | cons b bs ih =>
    rw [List.foldl_cons, ih, List.map_cons, List.sum_cons]
    have h := sum_map_update L hL r.content (tgt b) (wt b)
    simp only [TH1.AddBinContent]
    rw [h]
    abel

theorem axes_foldl_AddBinContent {β : Type} (tgt : β → List Nat) (wt : β → Dbl)
    (bs : List β) (r : TH1) :
    (bs.foldl (fun r b => r.AddBinContent (tgt b) (wt b)) r).axes = r.axes := by
  induction bs generalizing r with
  | nil => rfl
  | cons b bs ih => rw [List.foldl_cons, ih]; rfl

theorem mem_binsOf (axes : List TAxis) (b : List Nat) :
    b ∈ TH1.binsOf axes ↔ List.Forall₂ (fun a i => 1 ≤ i ∧ i ≤ a.GetNbins) axes b := by
  induction axes generalizing b with
  | nil => simp [TH1.binsOf]
  | cons a as ih =>
    simp only [TH1.binsOf, List.mem_flatMap, List.mem_map, List.mem_range'_1,
      List.forall₂_cons_left_iff]
    constructor
    · rintro ⟨i, ⟨h1, h2⟩, b', hb', rfl⟩
      exact ⟨i, b', ⟨h1, by omega⟩, (ih b').mp hb', rfl⟩
    · rintro ⟨i, b', ⟨h1, h2⟩, hb', rfl⟩
      exact ⟨i, ⟨h1, by omega⟩, b', (ih b').mpr hb', rfl⟩

theorem nodup_cons_product (l : List Nat) (hl : l.Nodup) (M : List (List Nat)) (hM : M.Nodup) :
    (l.flatMap (fun i => M.map (fun b => i :: b))).Nodup := by
  rw [List.nodup_flatMap]
  refine ⟨fun i _ => hM.map (fun x y h => (List.cons.inj h).2), ?_⟩
  refine hl.imp ?_
  intro i j hij
  simp only [Function.onFun, List.disjoint_left, List.mem_map]
  rintro c ⟨b, _, rfl⟩ ⟨b', _, h⟩
  exact hij (List.cons.inj h).1.symm

theorem nodup_binsOf (axes : List TAxis) : (TH1.binsOf axes).Nodup := by
  induction axes with
  | nil => simp [TH1.binsOf]
  | cons a as ih => exact nodup_cons_product _ (List.nodup_range' 1 a.GetNbins) _ ih

/-- A finite value inside the range of the axis is looked up in a bin of the axis, not in a
flow bin. -/
theorem FindBin_in_range (a : TAxis) (q : ℚ) (hlo : a.GetXmin ≤ q) (hhi : q < a.GetXmax) :
    1 ≤ a.FindBin (Dbl.fin q) ∧ a.FindBin (Dbl.fin q) ≤ a.GetNbins := by
  obtain ⟨edges⟩ := a
  simp only [TAxis.FindBin, TAxis.GetXmin, TAxis.GetXmax, TAxis.GetNbins] at *
  rw [if_neg (not_lt.mpr hlo), if_neg (not_not.mpr hhi)]
  cases edges with
  | nil => simp at hlo hhi; exact absurd hhi (not_lt.mpr hlo)
  | cons e0 rest =>
    simp only [List.headD_cons] at hlo
    constructor
    · rw [List.countP_cons_of_pos]
      · omega
      · simpa using hlo
    · have hne : (e0 :: rest) ≠ [] := List.cons_ne_nil _ _
      have hlast : (e0 :: rest).getLastD 0 = (e0 :: rest).getLast hne := by
        rw [List.getLastD_eq_getLast?, List.getLast?_eq_getLast _ hne]; rfl
      rw [hlast] at hhi
      have hle : (e0 :: rest).countP (fun e => decide (e ≤ q)) ≤ (e0 :: rest).length :=
        List.countP_le_length _
      have hnot : (e0 :: rest).countP (fun e => decide (e ≤ q)) ≠ (e0 :: rest).length := by
        intro h
        have hall := List.countP_eq_length.mp h _ (List.getLast_mem hne)
        simp only [decide_eq_true_eq] at hall
        exact absurd hhi (not_lt.mpr hall)
      simp only [List.length_cons] at hle hnot ⊢
      omega

theorem mem_range'_of_coversAxis {f c : TAxis} (h : coversAxis f c = true) {i : Nat}
    (h1 : 1 ≤ i) (h2 : i ≤ f.GetNbins) :
    c.GetXmin ≤ f.GetBinCenter i ∧ f.GetBinCenter i < c.GetXmax := by
  have hall := List.all_eq_true.mp h i (List.mem_range'_1.mpr ⟨h1, by omega⟩)
  simpa using hall

/-- Under `covers`, the centre of every fine bin is looked up in a coarse bin. -/
theorem target_mem_binsOf (fine coarse : List TAxis) (hc : covers fine coarse = true)
    (b : List Nat) (hb : b ∈ TH1.binsOf fine) :
    List.zipWith TAxis.FindBin coarse
      (List.zipWith (fun a i => Dbl.fin (a.GetBinCenter i)) fine b) ∈ TH1.binsOf coarse := by
  induction fine generalizing coarse b with
  | nil =>
    cases coarse with
    | nil => simp [TH1.binsOf]
    | cons c cs => simp [covers] at hc
  | cons f fs ih =>
    cases coarse with
    | nil => simp [covers] at hc
    | cons c cs =>
      simp only [covers, Bool.and_eq_true] at hc
      rw [mem_binsOf, List.forall₂_cons_left_iff] at hb
      obtain ⟨i, b', ⟨h1, h2⟩, hb', rfl⟩ := hb
      rw [mem_binsOf, List.zipWith_cons_cons, List.zipWith_cons_cons, List.forall₂_cons]
      have hcen := mem_range'_of_coversAxis hc.1 h1 h2
      refine ⟨FindBin_in_range c _ hcen.1 hcen.2, ?_⟩
      rw [← mem_binsOf]
      exact ih cs hc.2 b' ((mem_binsOf fs b').mpr hb')

namespace ThinSliceSample

theorem Rebin_axes (h r : TH1) : (Rebin h r).axes = r.axes :=
  axes_foldl_AddBinContent _ _ _ _

/-- Refilling an emptied histogram: the sum over a duplicate-free list of bins that holds
the target of every fine bin is the integral of the fine histogram. -/
theorem Rebin_sum (h r : TH1) (L : List (List Nat)) (hL : L.Nodup)
    (hmem : ∀ b ∈ h.bins, r.FindBins (h.binCenter b) ∈ L) :
    (L.map (Rebin h r.Reset).content).sum = h.Integral := by
  unfold Rebin
  rw [sum_foldl_AddBinContent L hL]
  have hzero : (L.map r.Reset.content).sum = 0 := by
    simp [TH1.Reset]
  have hw : (h.bins.map (fun b =>
      if r.Reset.FindBins (h.binCenter b) ∈ L then h.content b else 0)) =
      h.bins.map h.content :=
    List.map_congr_left (fun b hb => if_pos (hmem b hb))
  rw [hzero, hw, zero_add]
  rfl

/-- Rebinning into a coarse histogram whose ranges contain every fine bin centre keeps the
integral, the sums being those of the exact arithmetic of `Dbl`. -/
theorem Rebin_Integral (h r : TH1) (hc : covers h.axes r.axes = true) :
    (Rebin h r.Reset).Integral = h.Integral := by
  have := Rebin_sum h r (TH1.binsOf r.axes) (nodup_binsOf _)
    (fun b hb => target_mem_binsOf h.axes r.axes hc b hb)
  simpa [TH1.Integral, TH1.bins, Rebin_axes, TH1.Reset] using this

/-- The `Fill` of the container keeps the axes. -/
theorem Fill_axes (h : TH1) (p : List Dbl) : (h.Fill p).axes = h.axes := by
  unfold TH1.Fill TH1.FillW
  split_ifs <;> rfl

theorem foldl_Fill_axes (pts : List (List Dbl)) (h : TH1) :
    (pts.foldl TH1.Fill h).axes = h.axes := by
  induction pts generalizing h with
  | nil => rfl
  | cons p pts ih => rw [List.foldl_cons, ih, Fill_axes]

theorem inBins_congr {h1 h2 : TH1} (hax : h1.axes = h2.axes) : h1.inBins = h2.inBins := by
  funext xs
  simp only [TH1.inBins, TH1.FindBins, TH1.bins, hax]

/-- One `Fill` adds one to the integral when the point is counted in a bin, and nothing
otherwise. -/
theorem Fill_Integral (h : TH1) (p : List Dbl) :
    (h.Fill p).Integral = h.Integral + Dbl.fin ((if h.inBins p then 1 else 0 : ℕ) : ℚ) := by
  by_cases hlen : p.length = h.axes.length
  · have hfill : h.Fill p = h.AddBinContent (h.FindBins p) 1 := by
      unfold TH1.Fill TH1.FillW
      rw [if_pos hlen]
    have hsum := sum_map_update h.bins (nodup_binsOf h.axes) h.content (h.FindBins p) 1
    have hI : (h.Fill p).Integral = h.Integral + (if h.FindBins p ∈ h.bins then 1 else 0) := by
      rw [hfill]
      exact hsum
    rw [hI]
    by_cases hmem : h.FindBins p ∈ h.bins
    · simp [TH1.inBins, hlen, hmem, Dbl.one_def]
    · simp [TH1.inBins, hlen, hmem, Dbl.zero_def]
  · have hfill : h.Fill p = h := by
      unfold TH1.Fill TH1.FillW
      rw [if_neg hlen]
    rw [hfill]
    simp [TH1.inBins, hlen, ← Dbl.zero_def]

/-- After a run of `Fill` calls the integral has grown by the number of points counted in a
bin. -/
theorem foldl_Fill_Integral (pts : List (List Dbl)) (h : TH1) :
    (pts.foldl TH1.Fill h).Integral =
      h.Integral + Dbl.fin ((pts.countP h.inBins : ℕ) : ℚ) := by
  induction pts generalizing h with
  | nil => simp [← Dbl.zero_def]
  | cons p pts ih =>
    rw [List.foldl_cons, ih, Fill_Integral, inBins_congr (Fill_axes h p), add_assoc,
      Dbl.fin_add_fin, List.countP_cons]
    congr 2
    push_cast
    ring

theorem empty_Integral (axes : List TAxis) : (⟨axes, fun _ => 0⟩ : TH1).Integral = 0 := by
  simp [TH1.Integral]

/-- A histogram filled from empty holds, as its integral, the number of points counted in a
bin, a whole number not above the number of fills. -/
theorem filled_Integral (axes : List TAxis) (pts : List (List Dbl)) :
    (pts.foldl TH1.Fill ⟨axes, fun _ => 0⟩).Integral =
      Dbl.fin ((pts.countP (TH1.inBins ⟨axes, fun _ => 0⟩) : ℕ) : ℚ) := by
  rw [foldl_Fill_Integral, empty_Integral, zero_add]

/-- C1: for a fine histogram filled from empty by fewer than `2^53` calls of `Fill`, and a
coarse binning that groups the fine bins (on every axis the coarse range contains every fine
bin centre), `RefillRebinnedHists()` after `MakeRebinnedHists()` returns without an
exception and the bin contents of the rebinned histogram sum to the same value as the bin
contents of the fine histogram.  That value is the number of fills counted in a fine bin, a
whole number below `2^53`, so every content and every partial sum is a whole number that a
double holds exactly.  This holds for every selection channel and for the incident
histogram, and the fine histograms are left as they were. -/
theorem rebinned_integral_eq_fine_integral (s : ThinSliceSample)
    (coarse : Int → Nat → List ℚ) (coarseIncident : List ℚ) :
    ((s.MakeRebinnedHists coarse coarseIncident).RefillRebinnedHists).thrown = none ∧
    (∀ (id : Int) (axes : List TAxis) (pts : List (List Dbl)),
      s.fSelectionHists id = some (pts.foldl TH1.Fill ⟨axes, fun _ => 0⟩) →
      pts.length < 2 ^ 53 →
      covers axes ((List.range axes.length).map (fun k => ⟨coarse id k⟩)) = true →
      ∃ hr,
        ((s.MakeRebinnedHists coarse coarseIncident).RefillRebinnedHists).obj.fSelectionHistsRebinned
          id = some hr ∧
        hr.axes = (List.range axes.length).map (fun k => ⟨coarse id k⟩) ∧
        pts.countP (TH1.inBins ⟨axes, fun _ => 0⟩) < 2 ^ 53 ∧
        (pts.foldl TH1.Fill ⟨axes, fun _ => 0⟩).Integral =
          Dbl.fin ((pts.countP (TH1.inBins ⟨axes, fun _ => 0⟩) : ℕ) : ℚ) ∧
        hr.Integral = Dbl.fin ((pts.countP (TH1.inBins ⟨axes, fun _ => 0⟩) : ℕ) : ℚ) ∧
        hr.Integral = (pts.foldl TH1.Fill ⟨axes, fun _ => 0⟩).Integral) ∧
    (∀ (axis : TAxis) (vals : List Dbl),
      s.fIncidentHist = vals.foldl (fun h v => h.Fill [v]) ⟨[axis], fun _ => 0⟩ →
      vals.length < 2 ^ 53 →
      covers [axis] [⟨coarseIncident⟩] = true →
      vals.countP (fun v => TH1.inBins ⟨[axis], fun _ => 0⟩ [v]) < 2 ^ 53 ∧
      s.fIncidentHist.Integral =
        Dbl.fin ((vals.countP (fun v => TH1.inBins ⟨[axis], fun _ => 0⟩ [v]) : ℕ) : ℚ) ∧
      ((s.MakeRebinnedHists coarse
        coarseIncident).RefillRebinnedHists).obj.fIncidentHistRebinned.Integral =
        Dbl.fin ((vals.countP (fun v => TH1.inBins ⟨[axis], fun _ => 0⟩ [v]) : ℕ) : ℚ) ∧
      ((s.MakeRebinnedHists coarse
        coarseIncident).RefillRebinnedHists).obj.fIncidentHistRebinned.Integral =
        s.fIncidentHist.Integral) ∧
    ((s.MakeRebinnedHists coarse coarseIncident).RefillRebinnedHists).obj.fSelectionHists =
      s.fSelectionHists ∧
    ((s.MakeRebinnedHists coarse coarseIncident).RefillRebinnedHists).obj.fIncidentHist =
      s.fIncidentHist := by
  have hmade : (s.MakeRebinnedHists coarse coarseIncident).fMadeRebinned = true := rfl
  have hcall : (s.MakeRebinnedHists coarse coarseIncident).RefillRebinnedHists =
      ⟨none, { (s.MakeRebinnedHists coarse coarseIncident) with
        fSelectionHistsRebinned := fun id =>
          match (s.MakeRebinnedHists coarse coarseIncident).fSelectionHistsRebinned id with
          | some r =>
            match (s.MakeRebinnedHists coarse coarseIncident).fSelectionHists id with
            | some h => some (Rebin h r.Reset)
            | none => some r.Reset
          | none => none
        fIncidentHistRebinned :=
          Rebin (s.MakeRebinnedHists coarse coarseIncident).fIncidentHist
            (s.MakeRebinnedHists coarse coarseIncident).fIncidentHistRebinned.Reset }⟩ := by
    unfold RefillRebinnedHists
    rw [if_neg (by rw [hmade]; decide)]
  rw [hcall]
  refine ⟨rfl, fun id axes pts hsel hn hc => ?_, fun axis vals hinc hn hc => ?_, rfl, rfl⟩
  · have hax : (pts.foldl TH1.Fill ⟨axes, fun _ => 0⟩).axes = axes := foldl_Fill_axes pts _
    have hfine := filled_Integral axes pts
    have hle : pts.countP (TH1.inBins ⟨axes, fun _ => 0⟩) ≤ pts.length :=
      List.countP_le_length _
    have hreb : (Rebin (pts.foldl TH1.Fill ⟨axes, fun _ => 0⟩)
        (TH1.Reset ⟨(List.range axes.length).map (fun k => ⟨coarse id k⟩), fun _ => 0⟩)).Integral
        = (pts.foldl TH1.Fill ⟨axes, fun _ => 0⟩).Integral :=
      Rebin_Integral _ ⟨(List.range axes.length).map (fun k => ⟨coarse id k⟩), fun _ => 0⟩
        (by rw [hax]; exact hc)
    refine ⟨_, ?_, ?_, lt_of_le_of_lt hle hn, hfine, hreb.trans hfine, hreb⟩
    · simp [MakeRebinnedHists, hsel, hax]
    · rw [Rebin_axes]; rfl
  · have hfold : vals.foldl (fun h v => h.Fill [v]) (⟨[axis], fun _ => 0⟩ : TH1) =
        (vals.map (fun v => [v])).foldl TH1.Fill ⟨[axis], fun _ => 0⟩ := by
      rw [List.foldl_map]
    have hcount : (vals.map (fun v => [v])).countP (TH1.inBins ⟨[axis], fun _ => 0⟩) =
        vals.countP (fun v => TH1.inBins ⟨[axis], fun _ => 0⟩ [v]) := by
      rw [List.countP_map]; rfl
    have hfine : s.fIncidentHist.Integral =
        Dbl.fin ((vals.countP (fun v => TH1.inBins ⟨[axis], fun _ => 0⟩ [v]) : ℕ) : ℚ) := by
      rw [hinc, hfold, filled_Integral, hcount]
    have hax : s.fIncidentHist.axes = [axis] := by
      rw [hinc, hfold, foldl_Fill_axes]
    have hle : vals.countP (fun v => TH1.inBins ⟨[axis], fun _ => 0⟩ [v]) ≤ vals.length :=
      List.countP_le_length _
    have hreb : (Rebin s.fIncidentHist
        (TH1.Reset ⟨[⟨coarseIncident⟩], fun _ => 0⟩)).Integral = s.fIncidentHist.Integral :=
      Rebin_Integral _ ⟨[⟨coarseIncident⟩], fun _ => 0⟩ (by rw [hax]; exact hc)
    exact ⟨lt_of_le_of_lt hle hn, hfine, hreb.trans hfine, hreb⟩

theorem rebinned_integral_eq_fine_integral_witness :
    ((sample1.MakeRebinnedHists (fun _ _ => [0, 3])
      [0, 3]).RefillRebinnedHists).obj.fIncidentHistRebinned.Integral =
      sample1.fIncidentHist.Integral :=
  ((rebinned_integral_eq_fine_integral sample1 (fun _ _ => [0, 3]) [0, 3]).2.2.1
    ⟨[0, 1, 2, 3]⟩ [Dbl.fin (5 / 2)] rfl (by norm_num)
    (by
      norm_num [covers, coversAxis, TAxis.GetBinCenter, TAxis.GetXmin, TAxis.GetXmax,
        TAxis.GetNbins, List.range'])).2.2.2

/-- The scenario of the specification on the model of the rebinning routines: with the coarse
edges `0, 2, 5` the refilled rebinned histogram of channel `7` holds 3 in `[0, 2)` and 1 in
`[2, 5)`. -/
theorem scenario_rebinned :
    (((scenario.MakeRebinnedHists (fun _ _ => [0, 2, 5])
        [0, 2, 5]).RefillRebinnedHists).obj.fSelectionHistsRebinned 7).map
      (fun hr => (hr.content [1], hr.content [2], hr.Integral)) =
      some (Dbl.fin 3, Dbl.fin 1, Dbl.fin 4) := by
  simp [RefillRebinnedHists, MakeRebinnedHists, scenario, FillSelectionHist, sample0, emptyHist,
    Rebin, TH1.Reset, TH1.Integral, TH1.bins, TH1.binsOf, TH1.AddBinContent, TH1.FindBins,
    TH1.binCenter, TAxis.FindBin, TAxis.GetBinCenter, TAxis.GetXmin, TAxis.GetXmax,
    TAxis.GetNbins, List.range', TH1.Fill, TH1.FillW, Dbl.zero_def, Dbl.one_def,
    Dbl.fin_add_fin]
  norm_num [List.countP_cons, Dbl.fin_add_fin]

end ThinSliceSample

end protoana
